import Mathlib

/-!
# Verification of the hfsapi upload subsystem

A shallow embedding of `src/hfsapi/client.py` (the HFS HTTP file-server
client): URL path encoding, the transfer-body builder with its chunked
streaming path, the PUT upload operation with its single 404 retry, the
resource-URL resolver with its conflict-rename selection, the directory-walk
aggregation, and the session manager.  Bytes are modelled as `Nat` values
(< 256 in practice), byte strings as `List Nat`, and network effects as
explicit parameters (server oracles / listing results) or `Except`.
-/

namespace HFS

/-! ## UTF-8 encoding and percent-encoding (`urllib.parse.quote`) -/

/-- UTF-8 encoding of a single Unicode code point, as a list of byte values. -/
def utf8Bytes (c : Char) : List Nat :=
  let n := c.toNat
  if n < 0x80 then [n]
  else if n < 0x800 then [0xC0 + n / 0x40, 0x80 + n % 0x40]
  else if n < 0x10000 then
    [0xE0 + n / 0x1000, 0x80 + n / 0x40 % 0x40, 0x80 + n % 0x40]
  else
    [0xF0 + n / 0x40000, 0x80 + n / 0x1000 % 0x40, 0x80 + n / 0x40 % 0x40,
     0x80 + n % 0x40]

/-- UTF-8 encoding of a string. -/
def strBytes (s : String) : List Nat :=
  s.toList.flatMap utf8Bytes

/-- Uppercase hexadecimal digit for a value < 16. -/
def hexDigit (n : Nat) : Char :=
  if n < 10 then Char.ofNat (48 + n) else Char.ofNat (55 + n)

/-- `%XX` escape for a byte value (uppercase hex, as `urllib.parse.quote`). -/
def percentEscape (b : Nat) : String :=
  String.mk ['%', hexDigit (b / 16), hexDigit (b % 16)]

/-- The bytes `urllib.parse.quote` never escapes: ASCII letters, digits,
and `_.-~` (with `safe=""` nothing else is safe). -/
def isAlwaysSafe (b : Nat) : Bool :=
  (65 ≤ b && b ≤ 90) || (97 ≤ b && b ≤ 122) || (48 ≤ b && b ≤ 57) ||
  b == 95 || b == 46 || b == 45 || b == 126

/-- The characters `urllib.parse.quote(·, safe="")` emits for one byte. -/
def quoteByte (b : Nat) : List Char :=
  if isAlwaysSafe b then [Char.ofNat b] else ['%', hexDigit (b / 16), hexDigit (b % 16)]

/-- `urllib.parse.quote(s, safe="")`: percent-encode the UTF-8 bytes of `s`,
leaving only the always-safe bytes unescaped. -/
def quote (s : String) : String :=
  String.mk ((strBytes s).flatMap quoteByte)

/-- `urllib.parse.quote_plus`: like `quote` with `safe=""` but a space
becomes `+` (used by `urlencode`). -/
def quotePlus (s : String) : String :=
  String.mk ((strBytes s).flatMap fun b => if b == 32 then ['+'] else quoteByte b)

/-- `urllib.parse.urlencode` over an association list (its `quote_via`
default is `quote_plus`). -/
def urlencode (params : List (String × String)) : String :=
  String.intercalate "&" (params.map fun kv => quotePlus kv.1 ++ "=" ++ quotePlus kv.2)

/-! ## Python string helpers -/

/-- Python `s.strip("/")` at character-list level. -/
def charStrip (l : List Char) : List Char :=
  ((l.dropWhile (· == '/')).reverse.dropWhile (· == '/')).reverse

/-- Python `s.strip("/")`: drop `/` characters from both ends. -/
def stripSlashes (s : String) : String :=
  String.mk (charStrip s.toList)

/-- Python `s.rstrip("/")`: drop `/` characters from the right end. -/
def rstripSlashes (s : String) : String :=
  String.mk ((s.toList.reverse.dropWhile (· == '/')).reverse)

/-- Python `s.strip()`: drop ASCII whitespace from both ends (enough for the
`location` header handling). -/
def stripWs (s : String) : String :=
  String.mk (((s.toList.dropWhile Char.isWhitespace).reverse.dropWhile
    Char.isWhitespace).reverse)

/-- Split a character list at `/` (Python `s.split("/")`; the empty string
yields one empty field). -/
def splitSlash : List Char → List (List Char)
  | [] => [[]]
  | c :: cs =>
    match splitSlash cs, c == '/' with
    | r, true => [] :: r
    | [], false => [[c]]
    | h :: t, false => (c :: h) :: t

/-- Python `s.split("/")` on strings. -/
def splitOnSlash (s : String) : List String :=
  (splitSlash s.toList).map String.mk

/-- Join character lists with `/` (Python `"/".join`). -/
def joinSlashChars : List (List Char) → List Char
  | [] => []
  | [x] => x
  | x :: y :: rest => x ++ '/' :: joinSlashChars (y :: rest)

/-- Python `"/".join(l)` on strings. -/
def joinSlash (l : List String) : String :=
  String.mk (joinSlashChars (l.map String.toList))

/-! ## `_path_for_url` (client.py lines 26-29) -/

/-- `_path_for_url(path)`: split the `/`-stripped path into segments and
percent-encode each with `quote(seg, safe="")`; an empty path gives `/`. -/
def pathForUrl (path : String) : String :=
  let stripped := stripSlashes path
  let segments := if stripped = "" then [] else splitOnSlash stripped
  if segments = [] then "/"
  else "/" ++ joinSlash (segments.map quote)

/-! ## Transfer Body Builder (`_upload_body_and_headers`, client.py 260-296) -/

/-- `UPLOAD_CHUNK_SIZE = 1024 * 1024` (1 MiB). -/
def UPLOAD_CHUNK_SIZE : Nat := 1024 * 1024

/-- Anti-CSRF header name required by HFS on mutating requests. -/
def HFS_ANTI_CSRF_HEADER : String := "x-hfs-anti-csrf"

/-- Anti-CSRF header value. -/
def HFS_ANTI_CSRF_VALUE : String := "1"

/-- `_post_headers()`. -/
def postHeaders : List (String × String) := [(HFS_ANTI_CSRF_HEADER, HFS_ANTI_CSRF_VALUE)]

/-- A byte source passed to `_upload_body_and_headers`: either a `bytes`
buffer, or a file object (position 0) whose contents are `data`; `seekable`
records whether `seek`/`tell` succeed on it. -/
inductive ByteSource where
  | buffer (data : List Nat)
  | stream (data : List Nat) (seekable : Bool)
deriving DecidableEq

/-- A PUT body: either an in-memory byte string or the chunk sequence an
iterator yields. -/
inductive BodyData where
  | bytes (data : List Nat)
  | chunks (cs : List (List Nat))
deriving DecidableEq

/-- Total number of bytes a body yields. -/
def BodyData.totalBytes : BodyData → Nat
  | .bytes d => d.length
  | .chunks cs => (cs.map List.length).sum

/-- The chunk sequence the `stream_chunks` generator yields: repeated
`read(C)` (which returns the next `min C remaining` bytes) until an empty
read breaks the loop. -/
def streamChunks (C : Nat) (l : List Nat) : List (List Nat) :=
  if h : l.take C = [] then []
  else l.take C :: streamChunks C (l.drop C)
termination_by l.length
decreasing_by
  rw [List.take_eq_nil_iff] at h
  push_neg at h
  have hl : 0 < l.length := List.length_pos.mpr h.2
  have hC : C ≠ 0 := h.1
  simp only [List.length_drop]
  omega

/-- The `(sent, total)` values of the `on_progress` calls made after each
chunk, starting from cumulative count `sent`. -/
def chunkProgress (total : Nat) : List (List Nat) → Nat → List (Nat × Nat)
  | [], _ => []
  | c :: cs, sent => (sent + c.length, total) :: chunkProgress total cs (sent + c.length)

/-- Result of `_upload_body_and_headers`: the Python function returns
`(body, headers, is_stream)`; `events` additionally records the
`(sent, total)` arguments of every `on_progress` invocation observed when
the body is fully consumed (empty when no callback was supplied). -/
structure BuiltBody where
  body : BodyData
  headers : List (String × String)
  isStream : Bool
  events : List (Nat × Nat)
deriving DecidableEq

/-- `_upload_body_and_headers(file_content, referer, on_progress)`:
a `bytes` buffer is returned as-is with its length as Content-Length; an
unseekable stream is read whole and treated the same; a seekable stream is
sized via `seek(0,2)`/`tell()`, rewound, and returned as a lazy 1 MiB chunk
iterator with the size as Content-Length and progress callbacks `(0, size)`
then `(sent, size)` after each chunk. -/
def uploadBodyAndHeaders (src : ByteSource) (referer : String) (hasProgress : Bool) :
    BuiltBody :=
  let headers := postHeaders ++ [("Referer", referer)]
  match src with
  | .buffer data =>
      ⟨.bytes data, headers ++ [("Content-Length", toString data.length)], false, []⟩
  | .stream data false =>
      ⟨.bytes data, headers ++ [("Content-Length", toString data.length)], false, []⟩
  | .stream data true =>
      let size := data.length
      let cs := streamChunks UPLOAD_CHUNK_SIZE data
      let events := if hasProgress then (0, size) :: chunkProgress size cs 0 else []
      ⟨.chunks cs, headers ++ [("Content-Length", toString size)], true, events⟩

/-- Differences between consecutive `sent` values of a progress-event list
(the "chunk delta" each callback reports). -/
def sentDeltas : List (Nat × Nat) → List Nat
  | a :: b :: rest => (b.1 - a.1) :: sentDeltas (b :: rest)
  | _ => []

/-! ## Upload Operation, PUT branch (`upload_file` with `use_put=True`,
client.py 320-343) -/

/-- Python `s.replace("//", "/")`: left-to-right non-overlapping replacement. -/
def replaceDoubleSlash : List Char → List Char
  | '/' :: '/' :: rest => '/' :: replaceDoubleSlash rest
  | c :: rest => c :: replaceDoubleSlash rest
  | [] => []

/-- A request issued by the PUT upload path. -/
inductive Request where
  | get (url : String)
  | put (url : String)
deriving DecidableEq

/-- Whether a request is a PUT. -/
def Request.isPut : Request → Bool
  | .put _ => true
  | .get _ => false

/-- The URL of the first PUT: percent-encoded `folder/filename` (with `//`
collapsed) when the stripped folder is nonempty, else just the filename,
plus the encoded `put_params` query when present. -/
def putTargetUrl (folder filename : String) (putParams : List (String × String)) : String :=
  let folder := stripSlashes folder
  let path := if folder ≠ "" then String.mk (replaceDoubleSlash (folder ++ "/" ++ filename).toList)
              else filename
  let url := pathForUrl path
  if putParams ≠ [] then url ++ "?" ++ urlencode putParams else url

/-- The URL of the 404-retry PUT: the raw root-relative `/{filename}` plus
the encoded `put_params` query when present. -/
def putRetryUrl (filename : String) (putParams : List (String × String)) : String :=
  if putParams ≠ [] then "/" ++ filename ++ "?" ++ urlencode putParams
  else "/" ++ filename

/-- The Referer header sent with the PUT body. -/
def putReferer (baseUrl folder : String) : String :=
  let folder := stripSlashes folder
  if folder ≠ "" then baseUrl ++ pathForUrl folder ++ "/" else baseUrl ++ "/"

/-- Outcome of the PUT branch of `upload_file`: the ordered request trace,
the body built for the first PUT, the rebuilt body when the 404 retry was
taken, and the status of the response returned to the caller. -/
structure PutResult where
  requests : List Request
  firstBody : BuiltBody
  retryBody : Option BuiltBody
  finalStatus : Nat
deriving DecidableEq

/-- `upload_file(folder, file_content, filename, use_put=True, ...)`
(client.py 321-343).  `server i url` gives the status the server answers to
the `i`-th PUT (0-based) sent to `url`; the session-priming GET issued when
`use_session_for_put` and the folder is nonempty carries no status.  An
empty filename raises `ValueError` (modelled as `.error`).  The first PUT
goes to `putTargetUrl`; iff its status is 404 and the stripped folder is
nonempty, exactly one retry PUT is issued to `putRetryUrl` (rebuilding the
body from the rewound source when it was a stream) and its response is
returned; otherwise the first response is returned. -/
def uploadFilePut (server : Nat → String → Nat) (baseUrl folder filename : String)
    (putParams : List (String × String)) (useSessionForPut : Bool)
    (src : ByteSource) (hasProgress : Bool) : Except String PutResult :=
  if filename = "" then .error "use_put=True requires filename"
  else
    let folderS := stripSlashes folder
    let url := putTargetUrl folder filename putParams
    let referer := putReferer baseUrl folder
    let body := uploadBodyAndHeaders src referer hasProgress
    let pre : List Request :=
      if useSessionForPut ∧ folderS ≠ "" then [.get (pathForUrl folderS ++ "/")] else []
    let s0 := server 0 url
    if s0 = 404 ∧ folderS ≠ "" then
      let urlRel := putRetryUrl filename putParams
      let body1 := if body.isStream then uploadBodyAndHeaders src referer hasProgress else body
      .ok ⟨pre ++ [.put url, .put urlRel], body, some body1, server 1 urlRel⟩
    else
      .ok ⟨pre ++ [.put url], body, none, s0⟩

/-! ## Directory Walker aggregation (`upload_folder`, client.py 377-405) -/

/-- One enumerated file of a directory walk, abstracted by its computed
relative path (separators already normalized) and the response its upload
got: a status code and the response body text. -/
structure WalkFile where
  relPath : String
  status : Nat
  text : String
deriving DecidableEq

/-- The per-file classification loop of `upload_folder` (client.py 385-405):
status 200 or 201 increments the success count, any other status appends
`(relative path, "{status} {text}")` to the failure list, and the walk
continues either way.  Returns the `(ok, failed)` pair. -/
def walkAggregate (files : List WalkFile) : Nat × List (String × String) :=
  files.foldl
    (fun acc f =>
      if f.status = 200 ∨ f.status = 201 then (acc.1 + 1, acc.2)
      else (acc.1, acc.2 ++ [(f.relPath, toString f.status ++ " " ++ f.text)]))
    (0, [])

/-! ## Session Manager (`_get_client`, `close`, `login`, client.py 70-98
and 172-186) -/

/-- Configuration of a Client Session (the constructor's fields that the
session manager reads; `base_url` is already `rstrip("/")`-normalized). -/
structure ClientConfig where
  baseUrl : String
  username : Option String
  password : Option String
deriving DecidableEq

/-- An underlying `httpx.Client` handle: a creation id and its closed flag. -/
structure Handle where
  id : Nat
  isClosed : Bool
deriving DecidableEq

/-- The session's mutable state: the cached `_client` (None when absent) and
a counter supplying fresh handle ids. -/
structure SessionState where
  client : Option Handle
  nextId : Nat
deriving DecidableEq

/-- The `GET /?login=user:pass` URL issued to establish a session. -/
def loginUrl (u p : String) : String :=
  "/?" ++ urlencode [("login", u ++ ":" ++ p)]

/-- Result of `_get_client()`: either the state, the handle handed to the
caller and the requests issued, or a propagated transport exception (with
the state as mutated before the exception and the requests attempted). -/
inductive GetClientOutcome where
  | ok (state : SessionState) (handle : Handle) (requests : List String)
  | exn (state : SessionState) (requests : List String)
deriving DecidableEq

/-- Whether `_get_client()` raised. -/
def GetClientOutcome.raised : GetClientOutcome → Bool
  | .ok _ _ _ => false
  | .exn _ _ => true

/-- `_get_client()` (client.py 70-83): reuse the cached handle when it exists
and is not closed; otherwise create a fresh one and, when both username and
password are configured, immediately issue the `GET /?login=user:pass`
request.  `loginOutcome` models that request: `.error ()` is a transport
exception — the code wraps the call in no try/except, so it propagates —
and `.ok b` a completed response with `is_success = b`, whose status the
code ignores. -/
def getClient (cfg : ClientConfig) (s : SessionState)
    (loginOutcome : Except Unit Bool) : GetClientOutcome :=
  let fresh : Handle := ⟨s.nextId, false⟩
  let opened : SessionState := ⟨some fresh, s.nextId + 1⟩
  let openNew : GetClientOutcome :=
    match cfg.username, cfg.password with
    | some u, some p =>
      match loginOutcome with
      | .error _ => .exn opened [loginUrl u p]
      | .ok _ => .ok opened fresh [loginUrl u p]
    | _, _ => .ok opened fresh []
  match s.client with
  | some h => if ¬h.isClosed then .ok s h [] else openNew
  | none => openNew

/-- `close()` (client.py 88-92): when a cached client exists and is not
closed, close it and clear the cache; otherwise do nothing. -/
def close (s : SessionState) : SessionState :=
  match s.client with
  | some h => if ¬h.isClosed then { s with client := none } else s
  | none => s

/-- `login()` (client.py 172-186): returns False when a credential is
missing; otherwise issues the login GET through `_get_client()` and returns
the response's `is_success`, catching every exception — including one
raised inside `_get_client()` — and returning False.  `clientLoginOutcome`
models the login request `_get_client()` itself may issue;
`loginReqOutcome` models the explicit login request. -/
def loginCall (cfg : ClientConfig) (s : SessionState)
    (clientLoginOutcome loginReqOutcome : Except Unit Bool) : Bool :=
  match cfg.username, cfg.password with
  | some _, some _ =>
    match getClient cfg s clientLoginOutcome with
    | .exn _ _ => false
    | .ok _ _ _ =>
      match loginReqOutcome with
      | .error _ => false
      | .ok b => b
  | _, _ => false

/-! ## `pathlib.PurePosixPath` accessors (used by the resolver) -/

/-- The normalized path components of a relative path, as
`pathlib.PurePosixPath` keeps them: split on `/`, dropping empty and `.`
segments. -/
def pathParts (p : String) : List String :=
  (splitOnSlash p).filter (fun seg => seg != "" && seg != ".")

/-- `Path(p).name`: the final component (empty for an empty path). -/
def pathName (p : String) : String :=
  (pathParts p).getLast?.getD ""

/-- `str(Path(p).parent)`: the components without the last one, `"."` when
none remain. -/
def pathParentStr (p : String) : String :=
  let parts := (pathParts p).dropLast
  if parts = [] then "." else joinSlash parts

/-- Index of the last occurrence of a character (Python `str.rfind`). -/
def rfindIdx (c : Char) : List Char → Option Nat
  | [] => none
  | x :: rest =>
    match rfindIdx c rest with
    | some i => some (i + 1)
    | none => if x == c then some 0 else none

/-- `Path(p).suffix`: the extension of the final component — from its last
dot when that dot is neither first nor last, else empty. -/
def pathSuffix (p : String) : String :=
  let name := (pathName p).toList
  match rfindIdx '.' name with
  | some i => if 0 < i ∧ i < name.length - 1 then String.mk (name.drop i) else ""
  | none => ""

/-- `Path(p).stem`: the final component without its `pathSuffix`. -/
def pathStem (p : String) : String :=
  let name := (pathName p).toList
  match rfindIdx '.' name with
  | some i => if 0 < i ∧ i < name.length - 1 then String.mk (name.take i) else String.mk name
  | none => String.mk name

/-! ## `unquote` and `_url_path_readable` (client.py 19-23) -/

/-- Value of an ASCII hex digit. -/
def hexVal (c : Char) : Option Nat :=
  if '0' ≤ c ∧ c ≤ '9' then some (c.toNat - 48)
  else if 'A' ≤ c ∧ c ≤ 'F' then some (c.toNat - 55)
  else if 'a' ≤ c ∧ c ≤ 'f' then some (c.toNat - 87)
  else none

/-- Decode a UTF-8 byte sequence to characters, emitting U+FFFD for invalid
sequences (Python `bytes.decode` with `errors="replace"`). -/
def utf8Decode : List Nat → List Char
  | [] => []
  | b :: rest =>
    if b < 0x80 then Char.ofNat b :: utf8Decode rest
    else if 0xC2 ≤ b ∧ b ≤ 0xDF then
      match h2 : rest with
      | b1 :: rest1 =>
        if 0x80 ≤ b1 ∧ b1 ≤ 0xBF then
          Char.ofNat ((b - 0xC0) * 0x40 + (b1 - 0x80)) :: utf8Decode rest1
        else '�' :: utf8Decode rest
      | [] => ['�']
    else if 0xE0 ≤ b ∧ b ≤ 0xEF then
      match h3 : rest with
      | b1 :: b2 :: rest2 =>
        if (0x80 ≤ b1 ∧ b1 ≤ 0xBF) ∧ (0x80 ≤ b2 ∧ b2 ≤ 0xBF) ∧
           (b ≠ 0xE0 ∨ 0xA0 ≤ b1) ∧ (b ≠ 0xED ∨ b1 ≤ 0x9F) then
          Char.ofNat ((b - 0xE0) * 0x1000 + (b1 - 0x80) * 0x40 + (b2 - 0x80)) ::
            utf8Decode rest2
        else '�' :: utf8Decode rest
      | _ => ['�']
    else if 0xF0 ≤ b ∧ b ≤ 0xF4 then
      match h4 : rest with
      | b1 :: b2 :: b3 :: rest3 =>
        if (0x80 ≤ b1 ∧ b1 ≤ 0xBF) ∧ (0x80 ≤ b2 ∧ b2 ≤ 0xBF) ∧ (0x80 ≤ b3 ∧ b3 ≤ 0xBF) ∧
           (b ≠ 0xF0 ∨ 0x90 ≤ b1) ∧ (b ≠ 0xF4 ∨ b1 ≤ 0x8F) then
          Char.ofNat ((b - 0xF0) * 0x40000 + (b1 - 0x80) * 0x1000 +
            (b2 - 0x80) * 0x40 + (b3 - 0x80)) :: utf8Decode rest3
        else '�' :: utf8Decode rest
      | _ => ['�']
    else '�' :: utf8Decode rest
termination_by l => l.length
decreasing_by all_goals (subst_vars <;> simp_all [List.length_cons] <;> omega)

/-- `urllib.parse.unquote`: percent-escapes decode to bytes, maximal runs of
escaped bytes are UTF-8-decoded, and other characters pass through. The
accumulator holds the pending escaped bytes in reverse. -/
def unquoteAux : List Char → List Nat → List Char
  | [], pending => utf8Decode pending.reverse
  | '%' :: c1 :: c2 :: rest, pending =>
    match hexVal c1, hexVal c2 with
    | some h1, some h2 => unquoteAux rest ((h1 * 16 + h2) :: pending)
    | _, _ => utf8Decode pending.reverse ++ '%' :: unquoteAux (c1 :: c2 :: rest) []
  | '%' :: rest, pending => utf8Decode pending.reverse ++ '%' :: unquoteAux rest []
  | c :: rest, pending => utf8Decode pending.reverse ++ c :: unquoteAux rest []

/-- `urllib.parse.unquote` on strings. -/
def unquote (s : String) : String :=
  String.mk (unquoteAux s.toList [])

/-- Split a character list at the first occurrence of `c`. -/
def splitFirst (c : Char) : List Char → List Char × Option (List Char)
  | [] => ([], none)
  | x :: rest =>
    if x == c then ([], some rest)
    else
      let (pre, post) := splitFirst c rest
      (x :: pre, post)

/-- Components of a parsed URL. -/
structure UrlParts where
  scheme : String
  netloc : String
  path : String
  query : String
  fragment : String
deriving DecidableEq

/-- `urllib.parse.urlparse`, modelled for the absolute
`scheme://netloc/path?query#fragment` URLs this client builds: the scheme is
the lowercased part before the first `:` when a `//` netloc follows, the
netloc runs to the next `/`, `?` or `#`, and query and fragment are split
off the remainder at the first `?` and `#`. -/
def urlparse (url : String) : UrlParts :=
  let l := url.toList
  let (schemeChars, afterScheme) :=
    match splitFirst ':' l with
    | (pre, some post) =>
      if pre.all (fun ch => ch.isAlphanum || ch == '+' || ch == '-' || ch == '.') ∧
         '/' ∉ pre ∧ '?' ∉ pre ∧ '#' ∉ pre then (pre, post) else ([], l)
    | (_, none) => ([], l)
  let (netlocChars, afterNetloc) :=
    match afterScheme with
    | '/' :: '/' :: rest =>
      (rest.takeWhile (fun ch => ch ≠ '/' ∧ ch ≠ '?' ∧ ch ≠ '#'),
       rest.dropWhile (fun ch => ch ≠ '/' ∧ ch ≠ '?' ∧ ch ≠ '#'))
    | other => ([], other)
  let (beforeFrag, frag) :=
    match splitFirst '#' afterNetloc with
    | (pre, some post) => (pre, post)
    | (pre, none) => (pre, [])
  let (pathChars, queryChars) :=
    match splitFirst '?' beforeFrag with
    | (pre, some post) => (pre, post)
    | (pre, none) => (pre, [])
  ⟨String.mk (schemeChars.map Char.toLower), String.mk netlocChars,
   String.mk pathChars, String.mk queryChars, String.mk frag⟩

/-- `_url_path_readable(url)` (client.py 19-23): percent-decode the path
component for human display and reassemble the URL. -/
def urlPathReadable (url : String) : String :=
  let p := urlparse url
  let path := unquote p.path
  p.scheme ++ "://" ++ p.netloc ++ path ++
    (if p.query ≠ "" then "?" ++ p.query else "") ++
    (if p.fragment ≠ "" then "#" ++ p.fragment else "")

/-! ## `get_resource_url` (client.py 100-109) -/

/-- `get_resource_url(path, human_readable)`: the base URL plus the
percent-encoded path, percent-decoded for human display when requested. -/
def getResourceUrl (baseUrl path : String) (humanReadable : Bool) : String :=
  let raw := baseUrl ++ pathForUrl (stripSlashes path)
  if humanReadable then urlPathReadable raw else raw

/-! ## Resource URL Resolver (`get_uploaded_file_url`, client.py 111-168) -/

/-- A directory-listing entry as the resolver reads it: the `n` field when
present and a string (anything else behaves as absent), and the optional `m`
modification timestamp (an ISO string, compared lexicographically). -/
structure ListEntry where
  n : Option String
  m : Option String
deriving DecidableEq

/-- `entry_modified(ent) or ""` (models.py 32-34 plus the `or`). -/
def entryModified (e : ListEntry) : String :=
  e.m.getD ""

/-- Parse a nonempty all-digit string (the regex group `(\d+)` with `int`;
ASCII digits, which all inputs considered here use). -/
def parseDigits (l : List Char) : Option Nat :=
  if l ≠ [] ∧ l.all Char.isDigit then
    some (l.foldl (fun acc c => acc * 10 + (c.toNat - 48)) 0)
  else none

/-- Match `name` against `^{stem} \((\d+)\){ext}$` (client.py 151) and give
the captured `N`. -/
def matchRename (stem ext name : String) : Option Nat :=
  let pre := stem.toList ++ [' ', '(']
  let post := ')' :: ext.toList
  let nm := name.toList
  if pre.length + post.length ≤ nm.length ∧
     nm.take pre.length = pre ∧ nm.drop (nm.length - post.length) = post then
    parseDigits ((nm.drop pre.length).take (nm.length - pre.length - post.length))
  else none

/-- `_sort_key(ent)` (client.py 159-164): the pattern's `N` (0 when only the
exact name matched) paired with the modification timestamp. -/
def sortKey (stem ext : String) (e : ListEntry) : Nat × String :=
  let n := e.n.getD ""
  ((matchRename stem ext n).getD 0, entryModified e)

/-- Python tuple `<` on `(int, str)` keys: numeric then lexicographic. -/
def keyLt (a b : Nat × String) : Prop :=
  a.1 < b.1 ∨ (a.1 = b.1 ∧ a.2 < b.2)

instance (a b : Nat × String) : Decidable (keyLt a b) := by
  unfold keyLt; infer_instance

/-- Insert into a key-descending-sorted list, after every element whose key
is strictly greater (so equal keys keep their original order, as Python's
stable `sort(reverse=True)` does). -/
def insertDesc (stem ext : String) (e : ListEntry) : List ListEntry → List ListEntry
  | [] => [e]
  | b :: bs =>
    if keyLt (sortKey stem ext e) (sortKey stem ext b) then b :: insertDesc stem ext e bs
    else e :: b :: bs

/-- `candidates.sort(key=_sort_key, reverse=True)`: stable descending
insertion sort. -/
def sortDesc (stem ext : String) : List ListEntry → List ListEntry
  | [] => []
  | e :: es => insertDesc stem ext e (sortDesc stem ext es)

/-- The candidate filter (client.py 152-155): entries whose `n` is a string
equal to the requested base name or matching the conflict-rename pattern. -/
def renameCandidates (requestedFilename : String) (entries : List ListEntry) :
    List ListEntry :=
  let stem := pathStem requestedFilename
  let ext := pathSuffix requestedFilename
  let baseName := pathName requestedFilename
  entries.filter (fun e =>
    match e.n with
    | some nm => nm == baseName || (matchRename stem ext nm).isSome
    | none => false)

/-- The no-Location resolution core (client.py 148-166): filter the entries
to the candidates, sort them by `(N, mtime)` descending (stable), and take
the first one's name; `none` when no candidate matches. -/
def resolveActualName (requestedFilename : String) (entries : List ListEntry) :
    Option String :=
  let stem := pathStem requestedFilename
  let ext := pathSuffix requestedFilename
  match (sortDesc stem ext (renameCandidates requestedFilename entries)).head? with
  | some best => best.n
  | none => none

/-- The upload response fields the resolver reads: the `location` header
(case-insensitive lookup; `none` when absent). -/
structure UploadResponse where
  location : Option String
deriving DecidableEq

/-- `get_uploaded_file_url(folder, requested_filename, response)`
(client.py 111-168).  `listing` models the `get_file_list` call on the
parent directory: `.error ()` when it raises, `.ok data` its response,
where `data` is the `list` field (absent and empty behave alike through
`data.get("list") or []`).  A present-but-empty `location` header is falsy
in Python, so it takes the no-Location path. -/
def getUploadedFileUrl (baseUrl folder requestedFilename : String)
    (response : UploadResponse) (listing : Except Unit (Option (List ListEntry))) :
    String :=
  let location := match response.location with
    | some l => if l = "" then none else some l
    | none => none
  match location with
  | some loc0 =>
    let loc := stripWs loc0
    if "http://".isPrefixOf loc ∨ "https://".isPrefixOf loc then
      urlPathReadable loc
    else if "/".isPrefixOf loc then
      rstripSlashes baseUrl ++ unquote loc
    else
      let path := stripSlashes (rstripSlashes folder ++ "/" ++ unquote loc)
      getResourceUrl baseUrl path true
  | none =>
    let folder := stripSlashes folder
    let baseName := pathName requestedFilename
    let parentRel := pathParentStr requestedFilename
    let parentPath :=
      if parentRel ≠ "." then stripSlashes (folder ++ "/" ++ parentRel) else folder
    match listing with
    | .error _ =>
      getResourceUrl baseUrl (stripSlashes (parentPath ++ "/" ++ baseName)) true
    | .ok data =>
      let entries := data.getD []
      match resolveActualName requestedFilename entries with
      | none =>
        getResourceUrl baseUrl (stripSlashes (parentPath ++ "/" ++ baseName)) true
      | some actualName =>
        getResourceUrl baseUrl (stripSlashes (parentPath ++ "/" ++ actualName)) true

/-- The parent listing of the resolver's specification example: three
conflict-renamed entries with increasing modification timestamps. -/
def sampleListing : List ListEntry :=
  [⟨some "docker-compose (1).yaml", some "2024-05-01T10:00:00"⟩,
   ⟨some "docker-compose (9).yaml", some "2024-05-01T10:00:05"⟩,
   ⟨some "docker-compose (10).yaml", some "2024-05-01T10:00:09"⟩]

/-! ### Lemmas about the chunk stream -/

theorem streamChunks_sum_aux (C : Nat) (hC : C ≠ 0) :
    ∀ n (l : List Nat), l.length ≤ n →
      ((streamChunks C l).map List.length).sum = l.length := by
  intro n
  induction n with
  | zero =>
    intro l hl
    have : l = [] := List.eq_nil_of_length_eq_zero (Nat.le_zero.mp hl)
    subst this
    rw [streamChunks]
    simp
  | succ n ih =>
    intro l hl
    rw [streamChunks]
    split
    · rename_i h
      rw [List.take_eq_nil_iff] at h
      rcases h with h | h
      · exact absurd h hC
      · simp [h]
    · rename_i h
      rw [List.take_eq_nil_iff] at h
      push_neg at h
      have hlnil : 0 < l.length := List.length_pos.mpr h.2
      simp only [List.map_cons, List.sum_cons]
      rw [ih (l.drop C) (by simp only [List.length_drop]; omega)]
      simp only [List.length_take, List.length_drop]
      omega

/-- The chunks of a seekable stream sum to the stream's size. -/
theorem streamChunks_sum (C : Nat) (hC : C ≠ 0) (l : List Nat) :
    ((streamChunks C l).map List.length).sum = l.length :=
  streamChunks_sum_aux C hC l.length l le_rfl

theorem streamChunks_ne_nil_aux (C : Nat) :
    ∀ n (l : List Nat), l.length ≤ n →
      ∀ c ∈ streamChunks C l, c ≠ [] := by
  intro n
  induction n with
  | zero =>
    intro l hl
    have : l = [] := List.eq_nil_of_length_eq_zero (Nat.le_zero.mp hl)
    subst this
    rw [streamChunks]
    simp
  | succ n ih =>
    intro l hl c hc
    rw [streamChunks] at hc
    split at hc
    · simp at hc
    · rename_i h
      rw [List.take_eq_nil_iff] at h
      push_neg at h
      have hlnil : 0 < l.length := List.length_pos.mpr h.2
      rcases List.mem_cons.mp hc with rfl | hmem
      · intro habs
        rw [List.take_eq_nil_iff] at habs
        tauto
      · exact ih (l.drop C) (by simp only [List.length_drop]; omega) c hmem

/-- Every chunk the generator yields is nonempty. -/
theorem streamChunks_ne_nil (C : Nat) (l : List Nat) :
    ∀ c ∈ streamChunks C l, c ≠ [] :=
  streamChunks_ne_nil_aux C l.length l le_rfl

theorem streamChunks_length_aux (C : Nat) (hC : C ≠ 0) :
    ∀ n (l : List Nat), l.length ≤ n →
      (streamChunks C l).length = (l.length + C - 1) / C := by
  intro n
  induction n with
  | zero =>
    intro l hl
    have : l = [] := List.eq_nil_of_length_eq_zero (Nat.le_zero.mp hl)
    subst this
    rw [streamChunks]
    simp [Nat.div_eq_of_lt (by omega : C - 1 < C)]
  | succ n ih =>
    intro l hl
    rw [streamChunks]
    split
    · rename_i h
      rw [List.take_eq_nil_iff] at h
      rcases h with h | h
      · exact absurd h hC
      · simp [h, Nat.div_eq_of_lt (by omega : C - 1 < C)]
    · rename_i h
      rw [List.take_eq_nil_iff] at h
      push_neg at h
      have hlnil : 0 < l.length := List.length_pos.mpr h.2
      simp only [List.length_cons]
      rw [ih (l.drop C) (by simp only [List.length_drop]; omega)]
      simp only [List.length_drop]
      rcases le_or_lt C l.length with hcle | hclt
      · have h1 : l.length - C + C - 1 = l.length - 1 := by omega
        have h2 : l.length + C - 1 = l.length - 1 + C := by omega
        rw [h1, h2, Nat.add_div_right _ (Nat.pos_of_ne_zero hC)]
      · have h1 : l.length - C + C - 1 = C - 1 := by omega
        rw [h1, Nat.div_eq_of_lt (by omega : C - 1 < C)]
        have h2 : (l.length + C - 1) / C = 1 := by
          apply Nat.div_eq_of_lt_le <;> omega
        omega

/-- The number of chunks is `⌈size / C⌉`, written `(size + C - 1) / C`. -/
theorem streamChunks_length (C : Nat) (hC : C ≠ 0) (l : List Nat) :
    (streamChunks C l).length = (l.length + C - 1) / C :=
  streamChunks_length_aux C hC l.length l le_rfl

theorem sentDeltas_chunkProgress (t : Nat) (cs : List (List Nat)) :
    ∀ s, sentDeltas ((s, t) :: chunkProgress t cs s) = cs.map List.length := by
  induction cs with
  | nil => intro s; rfl
  | cons c cs ih =>
    intro s
    simp only [chunkProgress, sentDeltas]
    rw [ih]
    simp

theorem chunkProgress_cons_getLast (t : Nat) (cs : List (List Nat)) :
    ∀ s, (((s, t) :: chunkProgress t cs s)).getLast? =
      some (s + (cs.map List.length).sum, t) := by
  induction cs with
  | nil => intro s; simp [chunkProgress]
  | cons c cs ih =>
    intro s
    simp only [chunkProgress]
    rw [List.getLast?_cons_cons, ih (s + c.length)]
    simp only [List.map_cons, List.sum_cons]
    rw [Nat.add_assoc]

/-! ### Lemmas about splitting, joining and percent-encoding -/

theorem splitSlash_ne_nil (l : List Char) : splitSlash l ≠ [] := by
  cases l with
  | nil => simp [splitSlash]
  | cons c cs =>
    cases hsc : splitSlash cs <;> cases hc : (c == '/') <;> simp [splitSlash, hsc, hc]

theorem join_splitSlash (l : List Char) : joinSlashChars (splitSlash l) = l := by
  induction l with
  | nil => rfl
  | cons c cs ih =>
    cases hsc : splitSlash cs with
    | nil => exact absurd hsc (splitSlash_ne_nil cs)
    | cons h t =>
      rw [hsc] at ih
      cases hc : (c == '/') with
      | true =>
        have hc' : c = '/' := by simpa using hc
        cases t with
        | nil => simp [splitSlash, hsc, hc, joinSlashChars] at ih ⊢; simp [hc', ih]
        | cons y t' => simp [splitSlash, hsc, hc, joinSlashChars] at ih ⊢; simp [hc', ih]
      | false =>
        cases t with
        | nil => simp [splitSlash, hsc, hc, joinSlashChars] at ih ⊢; exact ih
        | cons y t' => simp [splitSlash, hsc, hc, joinSlashChars] at ih ⊢; exact ih

theorem mem_splitSlash_no_slash (l : List Char) :
    ∀ seg ∈ splitSlash l, '/' ∉ seg := by
  induction l with
  | nil => intro seg hseg; simp [splitSlash] at hseg; simp [hseg]
  | cons c cs ih =>
    intro seg hseg
    cases hsc : splitSlash cs with
    | nil => exact absurd hsc (splitSlash_ne_nil cs)
    | cons h t =>
      rw [hsc] at ih
      cases hc : (c == '/') with
      | true =>
        rw [splitSlash] at hseg
        simp only [hsc, hc] at hseg
        rcases List.mem_cons.mp hseg with rfl | hmem
        · simp
        · exact ih seg (hsc ▸ hmem)
      | false =>
        have hc' : ¬ c = '/' := by simpa using hc
        rw [splitSlash] at hseg
        simp only [hsc, hc] at hseg
        rcases List.mem_cons.mp hseg with rfl | hmem
        · intro habs
          rcases List.mem_cons.mp habs with heq | hmem2
          · exact hc' heq.symm
          · exact ih h (by simp) hmem2
        · exact ih seg (by simp [hmem])

theorem mem_splitSlash_subset (l : List Char) :
    ∀ seg ∈ splitSlash l, ∀ c ∈ seg, c ∈ l := by
  induction l with
  | nil => intro seg hseg; simp [splitSlash] at hseg; simp [hseg]
  | cons c cs ih =>
    intro seg hseg d hd
    cases hsc : splitSlash cs with
    | nil => exact absurd hsc (splitSlash_ne_nil cs)
    | cons h t =>
      rw [hsc] at ih
      cases hc : (c == '/') with
      | true =>
        rw [splitSlash] at hseg
        simp only [hsc, hc] at hseg
        rcases List.mem_cons.mp hseg with rfl | hmem
        · simp at hd
        · exact List.mem_cons_of_mem c (ih seg (hsc ▸ hmem) d hd)
      | false =>
        rw [splitSlash] at hseg
        simp only [hsc, hc] at hseg
        rcases List.mem_cons.mp hseg with rfl | hmem
        · rcases List.mem_cons.mp hd with rfl | hmem2
          · simp
          · exact List.mem_cons_of_mem c (ih h (by simp) d hmem2)
        · exact List.mem_cons_of_mem c (ih seg (by simp [hmem]) d hd)

theorem isAlwaysSafe_lt128 (b : Nat) (h : isAlwaysSafe b) : b < 128 := by
  unfold isAlwaysSafe at h
  simp only [Bool.or_eq_true, Bool.and_eq_true, decide_eq_true_eq, beq_iff_eq] at h
  omega

theorem utf8Bytes_ascii (c : Char) (h : c.toNat < 128) : utf8Bytes c = [c.toNat] := by
  unfold utf8Bytes
  simp [h]

theorem quote_safe_chars (l : List Char) (h : ∀ c ∈ l, isAlwaysSafe c.toNat) :
    (l.flatMap utf8Bytes).flatMap quoteByte = l := by
  induction l with
  | nil => simp
  | cons c cs ih =>
    have hc := h c (by simp)
    have hlt : c.toNat < 128 := isAlwaysSafe_lt128 _ hc
    rw [List.flatMap_cons, List.flatMap_append, utf8Bytes_ascii c hlt,
      ih (fun d hd => h d (by simp [hd]))]
    simp [quoteByte, hc, Char.ofNat_toNat]

theorem quote_safe (s : String) (h : ∀ c ∈ s.toList, isAlwaysSafe c.toNat) :
    quote s = s := by
  unfold quote strBytes
  rw [quote_safe_chars s.toList h]
  cases s
  rfl

theorem join_splitOnSlash (s : String) : joinSlash (splitOnSlash s) = s := by
  unfold joinSlash splitOnSlash
  rw [List.map_map]
  have hmap : (String.toList ∘ String.mk) = (id : List Char → List Char) := rfl
  rw [hmap, List.map_id, join_splitSlash]
  cases s
  rfl

theorem charStrip_subset (l : List Char) (c : Char) (h : c ∈ charStrip l) : c ∈ l := by
  unfold charStrip at h
  rw [List.mem_reverse] at h
  have h2 := (List.dropWhile_sublist (· == '/')).subset h
  rw [List.mem_reverse] at h2
  exact (List.dropWhile_sublist (· == '/')).subset h2

/-! ### Lemmas about the stable descending sort of the resolver -/

theorem keyLt_trans {a b c : Nat × String} (h1 : keyLt a b) (h2 : keyLt b c) :
    keyLt a c := by
  unfold keyLt at *
  rcases h1 with h1 | ⟨e1, l1⟩ <;> rcases h2 with h2 | ⟨e2, l2⟩
  · left; omega
  · left; omega
  · left; omega
  · right; exact ⟨e1.trans e2, lt_trans l1 l2⟩

theorem keyLt_irrefl (a : Nat × String) : ¬ keyLt a a := by
  unfold keyLt
  rintro (h | ⟨-, h⟩)
  · omega
  · exact lt_irrefl _ h

theorem keyLt_trichotomy (a b : Nat × String) : keyLt a b ∨ a = b ∨ keyLt b a := by
  obtain ⟨a1, a2⟩ := a
  obtain ⟨b1, b2⟩ := b
  unfold keyLt
  rcases Nat.lt_trichotomy a1 b1 with h | h | h
  · exact Or.inl (Or.inl h)
  · rcases lt_trichotomy a2 b2 with h2 | h2 | h2
    · exact Or.inl (Or.inr ⟨h, h2⟩)
    · subst h; subst h2; exact Or.inr (Or.inl rfl)
    · exact Or.inr (Or.inr (Or.inr ⟨h.symm, h2⟩))
  · exact Or.inr (Or.inr (Or.inl h))

theorem insertDesc_ne_nil (stem ext : String) (e : ListEntry) (l : List ListEntry) :
    insertDesc stem ext e l ≠ [] := by
  cases l with
  | nil => simp [insertDesc]
  | cons b bs => unfold insertDesc; split <;> simp

theorem sortDesc_eq_nil (stem ext : String) (l : List ListEntry)
    (h : sortDesc stem ext l = []) : l = [] := by
  cases l with
  | nil => rfl
  | cons e es =>
    rw [sortDesc] at h
    exact absurd h (insertDesc_ne_nil stem ext e (sortDesc stem ext es))

theorem mem_insertDesc (stem ext : String) (e : ListEntry) (l : List ListEntry)
    (x : ListEntry) (hx : x ∈ insertDesc stem ext e l) : x = e ∨ x ∈ l := by
  induction l with
  | nil => simpa [insertDesc] using hx
  | cons b bs ih =>
    unfold insertDesc at hx
    split at hx
    · rcases List.mem_cons.mp hx with rfl | hx2
      · right; simp
      · rcases ih hx2 with rfl | h2
        · left; rfl
        · right; simp [h2]
    · rcases List.mem_cons.mp hx with rfl | hx2
      · left; rfl
      · right; exact hx2

theorem sortDesc_head_max (stem ext : String) (l : List ListEntry) (b : ListEntry)
    (hb : (sortDesc stem ext l).head? = some b) :
    b ∈ l ∧ ∀ e ∈ l, ¬ keyLt (sortKey stem ext b) (sortKey stem ext e) := by
  induction l generalizing b with
  | nil => simp [sortDesc] at hb
  | cons x xs ih =>
    rw [sortDesc] at hb
    cases hxs : sortDesc stem ext xs with
    | nil =>
      have hxsnil : xs = [] := sortDesc_eq_nil _ _ _ hxs
      rw [hxs] at hb
      simp [insertDesc] at hb
      subst hb
      refine ⟨by simp, ?_⟩
      intro e he
      rcases List.mem_cons.mp he with rfl | h2
      · exact keyLt_irrefl _
      · rw [hxsnil] at h2; simp at h2
    | cons y ys =>
      rw [hxs] at hb
      obtain ⟨hyMem, hyMax⟩ := ih y (by rw [hxs]; rfl)
      unfold insertDesc at hb
      split at hb
      · rename_i hxy
        simp at hb
        subst hb
        refine ⟨List.mem_cons_of_mem x hyMem, ?_⟩
        intro e he
        rcases List.mem_cons.mp he with rfl | h2
        · exact fun habs => keyLt_irrefl _ (keyLt_trans habs hxy)
        · exact hyMax e h2
      · rename_i hxy
        simp at hb
        subst hb
        refine ⟨by simp, ?_⟩
        intro e he
        rcases List.mem_cons.mp he with rfl | h2
        · exact keyLt_irrefl _
        · intro habs
          have hnye := hyMax e h2
          rcases keyLt_trichotomy (sortKey stem ext e) (sortKey stem ext y) with
            hey | hey | hey
          · exact hxy (keyLt_trans habs hey)
          · rw [hey] at habs; exact hxy habs
          · exact hnye hey

/-! ### Lemmas about slash-stripping and path recomposition -/

theorem head?_mem {l : List Char} {a : Char} (h : l.head? = some a) : a ∈ l := by
  cases l with
  | nil => simp at h
  | cons x xs => simp at h; simp [h]

theorem getLast?_mem {l : List Char} {a : Char} (h : l.getLast? = some a) : a ∈ l := by
  rw [← List.head?_reverse] at h
  rw [← List.mem_reverse]
  exact head?_mem h

theorem dropWhile_eq_self_of_head {l : List Char} (h : l.head? ≠ some '/') :
    l.dropWhile (· == '/') = l := by
  cases l with
  | nil => rfl
  | cons c cs =>
    have : ¬ c = '/' := by simpa using h
    simp [List.dropWhile_cons, this]

theorem head?_dropWhile_ne {l : List Char} {c : Char}
    (h : (l.dropWhile (· == '/')).head? = some c) : ¬ c = '/' := by
  induction l with
  | nil => simp at h
  | cons x xs ih =>
    by_cases hx : x = '/'
    · rw [List.dropWhile_cons] at h
      simp only [hx] at h
      simp at h
      exact ih (by simpa using h)
    · rw [List.dropWhile_cons] at h
      simp only [show (x == '/') = false by simpa using hx] at h
      simp at h
      exact h ▸ hx

theorem getLast?_dropWhile {l : List Char}
    (h : l.dropWhile (· == '/') ≠ []) :
    (l.dropWhile (· == '/')).getLast? = l.getLast? := by
  induction l with
  | nil => simp at h
  | cons c cs ih =>
    by_cases hc : c = '/'
    · rw [List.dropWhile_cons] at h ⊢
      simp only [hc] at h ⊢
      simp only [beq_self_eq_true, if_true] at h ⊢
      have hcs : cs ≠ [] := by
        intro habs
        rw [habs] at h
        simp at h
      rw [ih h]
      cases cs with
      | nil => exact absurd rfl hcs
      | cons d ds => rw [List.getLast?_cons_cons]
    · simp [List.dropWhile_cons, show (c == '/') = false by simpa using hc]

theorem charStrip_head_ne (l : List Char) : (charStrip l).head? ≠ some '/' := by
  unfold charStrip
  rw [List.head?_reverse]
  by_cases hB : (l.dropWhile (· == '/')).reverse.dropWhile (· == '/') = []
  · rw [hB]; simp
  · rw [getLast?_dropWhile hB, List.getLast?_reverse]
    intro habs
    exact head?_dropWhile_ne habs rfl

theorem charStrip_getLast_ne (l : List Char) : (charStrip l).getLast? ≠ some '/' := by
  unfold charStrip
  rw [List.getLast?_reverse]
  intro habs
  exact head?_dropWhile_ne habs rfl

theorem charStrip_eq_self {l : List Char} (h1 : l.head? ≠ some '/')
    (h2 : l.getLast? ≠ some '/') : charStrip l = l := by
  unfold charStrip
  rw [dropWhile_eq_self_of_head h1]
  rw [dropWhile_eq_self_of_head (by rwa [List.head?_reverse])]
  exact List.reverse_reverse l

theorem charStrip_cons_slash (l : List Char) : charStrip ('/' :: l) = charStrip l := by
  unfold charStrip
  rw [List.dropWhile_cons]
  simp

theorem getLast?_append_cons (x : List Char) (c : Char) (y : List Char) (hy : y ≠ []) :
    (x ++ c :: y).getLast? = y.getLast? := by
  induction x with
  | nil =>
    simp only [List.nil_append]
    cases y with
    | nil => exact absurd rfl hy
    | cons d ds => rw [List.getLast?_cons_cons]
  | cons a as ih =>
    rw [List.cons_append]
    rcases List.exists_cons_of_ne_nil (by simp : as ++ c :: y ≠ []) with ⟨e, es, hes⟩
    rw [hes, List.getLast?_cons_cons, ← hes, ih]

/-- The two ways the fallback path composes folder, parent and base agree
after slash-stripping. -/
theorem charStrip_concat_assoc (f p bb : List Char)
    (hf1 : f.head? ≠ some '/') (hf2 : f.getLast? ≠ some '/')
    (hp0 : p ≠ []) (hp1 : p.head? ≠ some '/') (hp2 : p.getLast? ≠ some '/') :
    charStrip (charStrip (f ++ '/' :: p) ++ '/' :: bb) =
      charStrip (f ++ '/' :: (p ++ '/' :: bb)) := by
  cases f with
  | nil =>
    rw [List.nil_append, List.nil_append, charStrip_cons_slash,
      charStrip_eq_self hp1 hp2, charStrip_cons_slash]
  | cons c f' =>
    have hc : ¬ c = '/' := by simpa using hf1
    have hinner : charStrip ((c :: f') ++ '/' :: p) = (c :: f') ++ '/' :: p := by
      apply charStrip_eq_self
      · simpa using hc
      · rw [getLast?_append_cons _ _ _ hp0]
        exact hp2
    rw [hinner]
    have : ((c :: f') ++ '/' :: p) ++ '/' :: bb = (c :: f') ++ '/' :: (p ++ '/' :: bb) := by
      simp [List.append_assoc]
    rw [this]

theorem joinSlashChars_facts (psl : List (List Char)) (h0 : psl ≠ [])
    (h1 : ∀ s ∈ psl, s ≠ []) (h2 : ∀ s ∈ psl, '/' ∉ s) :
    joinSlashChars psl ≠ [] ∧ (joinSlashChars psl).head? ≠ some '/' ∧
      (joinSlashChars psl).getLast? ≠ some '/' := by
  induction psl with
  | nil => exact absurd rfl h0
  | cons x rest ih =>
    cases rest with
    | nil =>
      refine ⟨h1 x (by simp), ?_, ?_⟩
      · intro habs
        exact h2 x (by simp) (head?_mem habs)
      · intro habs
        exact h2 x (by simp) (getLast?_mem habs)
    | cons y rest' =>
      obtain ⟨jNe, _, jLast⟩ := ih (by simp)
        (fun s hs => h1 s (by simp [hs])) (fun s hs => h2 s (by simp [hs]))
      have hx := h1 x (by simp)
      refine ⟨by simp [joinSlashChars], ?_, ?_⟩
      · show ((x ++ '/' :: joinSlashChars (y :: rest')).head? ≠ some '/')
        cases x with
        | nil => exact absurd rfl hx
        | cons a as =>
          intro habs
          simp at habs
          exact h2 (a :: as) (by simp) (by simp [habs])
      · show ((x ++ '/' :: joinSlashChars (y :: rest')).getLast? ≠ some '/')
        rw [getLast?_append_cons _ _ _ jNe]
        exact jLast

theorem joinSlashChars_concat (xs : List (List Char)) (y : List Char) (h : xs ≠ []) :
    joinSlashChars (xs ++ [y]) = joinSlashChars xs ++ '/' :: y := by
  induction xs with
  | nil => exact absurd rfl h
  | cons x rest ih =>
    cases rest with
    | nil => rfl
    | cons z rest' =>
      have := ih (by simp)
      show x ++ '/' :: joinSlashChars ((z :: rest') ++ [y]) = _
      rw [this]
      simp [joinSlashChars, List.append_assoc]

theorem toList_ne_nil {s : String} (h : s ≠ "") : s.toList ≠ [] := by
  intro habs
  apply h
  have hs : s = String.mk s.toList := by cases s; rfl
  rw [hs, habs]

theorem string_eq_of_toList {a b : String} (h : a.toList = b.toList) : a = b := by
  have ha : a = String.mk a.toList := by cases a; rfl
  have hb : b = String.mk b.toList := by cases b; rfl
  rw [ha, hb, h]

theorem toList_append3 (a b : String) : (a ++ "/" ++ b).toList = a.toList ++ '/' :: b.toList := by
  cases a; cases b
  simp [String.toList]

theorem toList_stripSlashes (s : String) : (stripSlashes s).toList = charStrip s.toList :=
  rfl

theorem toList_joinSlash (l : List String) :
    (joinSlash l).toList = joinSlashChars (l.map String.toList) :=
  rfl

theorem joinSlash_singleton (b : String) : joinSlash [b] = b := by
  cases b; rfl

theorem joinSlash_concat (ss : List String) (b : String) (h : ss ≠ []) :
    joinSlash (ss ++ [b]) = joinSlash ss ++ "/" ++ b := by
  apply string_eq_of_toList
  rw [toList_append3, toList_joinSlash, toList_joinSlash, List.map_append]
  exact joinSlashChars_concat _ _ (by simpa using h)

theorem splitOnSlash_ne_nil (s : String) : splitOnSlash s ≠ [] := by
  unfold splitOnSlash
  simp [splitSlash_ne_nil]

theorem joinSlash_ne_dot (psl : List String) (h0 : psl ≠ [])
    (hne : ∀ s ∈ psl, s ≠ "") (hdot : ∀ s ∈ psl, s ≠ ".") :
    joinSlash psl ≠ "." := by
  cases psl with
  | nil => exact absurd rfl h0
  | cons x rest =>
    cases rest with
    | nil =>
      rw [joinSlash_singleton]
      exact hdot x (by simp)
    | cons y rest' =>
      intro habs
      have hlen := congrArg (fun s => s.toList.length) habs
      simp only [toList_joinSlash, List.map_cons] at hlen
      have hx : x.toList ≠ [] := toList_ne_nil (hne x (by simp))
      have hd : (("." : String).toList).length = 1 := by decide
      simp only [joinSlashChars, List.length_append, List.length_cons] at hlen
      have hxpos : 0 < x.toList.length := List.length_pos.mpr hx
      omega

/-! ## Sanity examples for the encoder -/

example : pathForUrl "" = "/" := by decide

example : pathForUrl "data/f.txt" = "/data/f.txt" := by decide

example : pathForUrl "你好" = "/%E4%BD%A0%E5%A5%BD" := by decide

/-! ## Claim theorems -/

/-- **C1.** For every byte source — a fixed `bytes` buffer, a seekable
stream, or an unseekable stream — and any referer and progress-callback
choice, the Content-Length header `_upload_body_and_headers` returns equals
the exact total number of bytes the returned body (buffer or chunk
iterator) yields. -/
theorem content_length_matches_body (src : ByteSource) (referer : String)
    (hasProgress : Bool) :
    ((uploadBodyAndHeaders src referer hasProgress).headers).lookup "Content-Length" =
      some (toString (uploadBodyAndHeaders src referer hasProgress).body.totalBytes) := by
  cases src with
  | buffer data =>
    simp [uploadBodyAndHeaders, postHeaders, HFS_ANTI_CSRF_HEADER, HFS_ANTI_CSRF_VALUE,
      BodyData.totalBytes, List.lookup]
  | stream data seekable =>
    cases seekable with
    | false =>
      simp [uploadBodyAndHeaders, postHeaders, HFS_ANTI_CSRF_HEADER, HFS_ANTI_CSRF_VALUE,
        BodyData.totalBytes, List.lookup]
    | true =>
      simp [uploadBodyAndHeaders, postHeaders, HFS_ANTI_CSRF_HEADER, HFS_ANTI_CSRF_VALUE,
        BodyData.totalBytes, List.lookup,
        streamChunks_sum UPLOAD_CHUNK_SIZE (by norm_num [UPLOAD_CHUNK_SIZE]) data]

/-- **C2.** For a seekable source of size `S` consumed through the chunked
path with chunk size 1 MiB and a progress callback supplied: the very first
callback is `(0, S)` (before any chunk), the number of callbacks with a
nonzero chunk delta is `⌈S / C⌉ = (S + C - 1) / C`, and the final
cumulative `sent` value is exactly `S`. -/
theorem chunking_invariant (data : List Nat) (referer : String) :
    ((uploadBodyAndHeaders (.stream data true) referer true).events).head? =
        some (0, data.length) ∧
    ((sentDeltas (uploadBodyAndHeaders (.stream data true) referer true).events).countP
        (· != 0)) =
      (data.length + UPLOAD_CHUNK_SIZE - 1) / UPLOAD_CHUNK_SIZE ∧
    ((uploadBodyAndHeaders (.stream data true) referer true).events).getLast? =
        some (data.length, data.length) := by
  have hC : UPLOAD_CHUNK_SIZE ≠ 0 := by norm_num [UPLOAD_CHUNK_SIZE]
  have hev : (uploadBodyAndHeaders (.stream data true) referer true).events =
      (0, data.length) :: chunkProgress data.length
        (streamChunks UPLOAD_CHUNK_SIZE data) 0 := by
    simp [uploadBodyAndHeaders]
  refine ⟨by rw [hev]; rfl, ?_, ?_⟩
  · rw [hev, sentDeltas_chunkProgress]
    rw [List.countP_eq_length.mpr ?_]
    · rw [List.length_map, streamChunks_length UPLOAD_CHUNK_SIZE hC]
    · intro a ha
      rcases List.mem_map.mp ha with ⟨c, hc, rfl⟩
      have := streamChunks_ne_nil UPLOAD_CHUNK_SIZE data c hc
      simp [List.length_eq_zero, this]
  · rw [hev, chunkProgress_cons_getLast]
    rw [streamChunks_sum UPLOAD_CHUNK_SIZE hC data]
    simp

/-- **C10.** The builder never invokes the progress callback for a fixed
`bytes` buffer nor for an unseekable source read whole: its observable
callback-event list is empty on those paths, for every callback choice. -/
theorem no_progress_outside_chunked_path (data : List Nat) (referer : String)
    (hasProgress : Bool) :
    (uploadBodyAndHeaders (.buffer data) referer hasProgress).events = [] ∧
    (uploadBodyAndHeaders (.stream data false) referer hasProgress).events = [] :=
  ⟨rfl, rfl⟩

/-- **C7 counterexample.** The claim says a path whose segments contain
only ASCII characters is left unchanged by `_path_for_url`; but
`urllib.parse.quote(seg, safe="")` escapes every ASCII character outside
the unreserved set, so the all-ASCII path `a b` is changed to `/a%20b`. -/
theorem pathForUrl_ascii_changed :
    (∀ c ∈ ("a b" : String).toList, c.toNat < 128) ∧
    pathForUrl "a b" ≠ "/a b" ∧ pathForUrl "a b" = "/a%20b" := by
  refine ⟨by decide, by decide, by decide⟩

/-- **C7 (amended).** The segment `你好` is percent-encoded (UTF-8) as
`%E4%BD%A0%E5%A5%BD`; a path whose characters are all *unreserved* ASCII
(letters, digits, `_.-~`) or `/` is left unchanged apart from the canonical
leading slash; and an empty path resolves to `/`. -/
theorem pathForUrl_encoding (path : String) :
    quote "你好" = "%E4%BD%A0%E5%A5%BD" ∧
    ((∀ c ∈ path.toList, isAlwaysSafe c.toNat ∨ c = '/') →
      pathForUrl path = "/" ++ stripSlashes path) ∧
    pathForUrl "" = "/" := by
  refine ⟨by decide, ?_, by decide⟩
  intro hpath
  unfold pathForUrl
  by_cases hstr : stripSlashes path = ""
  · simp [hstr]
  · have hne : splitOnSlash (stripSlashes path) ≠ [] := by
      unfold splitOnSlash
      simp [splitSlash_ne_nil]
    have hsegs : ∀ seg ∈ splitOnSlash (stripSlashes path), quote seg = seg := by
      intro seg hseg
      unfold splitOnSlash at hseg
      rcases List.mem_map.mp hseg with ⟨csl, hcsl, rfl⟩
      apply quote_safe
      intro c hc
      have hcseg : c ∈ csl := hc
      have hnoslash : '/' ∉ csl := mem_splitSlash_no_slash _ csl hcsl
      have hcl : c ∈ (stripSlashes path).toList :=
        mem_splitSlash_subset _ csl hcsl c hcseg
      have hcp : c ∈ path.toList := charStrip_subset _ c hcl
      rcases hpath c hcp with hsafe | hslash
      · exact hsafe
      · exact absurd (hslash ▸ hcseg) hnoslash
    have hmapq : (splitOnSlash (stripSlashes path)).map quote =
        splitOnSlash (stripSlashes path) := by
      rw [List.map_congr_left hsegs]
      exact List.map_id _
    simp only [hstr, if_false, if_neg hne, hmapq, join_splitOnSlash]

/-- **C7 witness.** The amended unchanged-path property at the concrete
unreserved-ASCII path `data/f.txt`. -/
theorem pathForUrl_encoding_witness :
    (∀ c ∈ ("data/f.txt" : String).toList, isAlwaysSafe c.toNat ∨ c = '/') ∧
    pathForUrl "data/f.txt" = "/" ++ stripSlashes "data/f.txt" :=
  ⟨by decide, (pathForUrl_encoding "data/f.txt").2.1 (by decide)⟩

/-- **C3.** In a direct-write upload with a nonempty (stripped) folder whose
first PUT returns 404, exactly one retry PUT is issued — to the
root-relative bare filename URL — and nothing follows it, whatever the
retry's status; with an empty folder or a non-404 first status, the trace
holds no second PUT.  The status handed back is the retry's response when
the retry happened, the first response otherwise. -/
theorem put_404_single_retry (server : Nat → String → Nat)
    (baseUrl folder filename : String) (putParams : List (String × String))
    (useSessionForPut : Bool) (src : ByteSource) (hasProgress : Bool)
    (hname : filename ≠ "") :
    (uploadFilePut server baseUrl folder filename putParams useSessionForPut
        src hasProgress).map (fun r => r.requests.filter Request.isPut) =
      .ok (if server 0 (putTargetUrl folder filename putParams) = 404 ∧
              stripSlashes folder ≠ ""
           then [.put (putTargetUrl folder filename putParams),
                 .put (putRetryUrl filename putParams)]
           else [.put (putTargetUrl folder filename putParams)]) ∧
    (uploadFilePut server baseUrl folder filename putParams useSessionForPut
        src hasProgress).map PutResult.finalStatus =
      .ok (if server 0 (putTargetUrl folder filename putParams) = 404 ∧
              stripSlashes folder ≠ ""
           then server 1 (putRetryUrl filename putParams)
           else server 0 (putTargetUrl folder filename putParams)) := by
  by_cases hf : stripSlashes folder = ""
  · by_cases hs : useSessionForPut <;>
      simp [uploadFilePut, hname, hf, hs, Request.isPut, Except.map, List.filter]
  · by_cases h404 : server 0 (putTargetUrl folder filename putParams) = 404 <;>
      by_cases hs : useSessionForPut <;>
        simp [uploadFilePut, hname, hf, h404, hs, Request.isPut, Except.map, List.filter]

/-- **C3 witness.** Concrete run: folder `data`, file `f.txt`, a server
returning 404 to the first PUT and 201 to the retry. -/
theorem put_404_single_retry_witness :
    ("f.txt" : String) ≠ "" ∧
    ((uploadFilePut (fun i _ => if i = 0 then 404 else 201) "http://127.0.0.1:8280"
        "data" "f.txt" [("resume", "0!")] true (.buffer [7, 7]) false).map
        (fun r => r.requests.filter Request.isPut) =
      .ok (if (fun (i : Nat) (_ : String) => if i = 0 then 404 else 201) 0
              (putTargetUrl "data" "f.txt" [("resume", "0!")]) = 404 ∧
              stripSlashes "data" ≠ ""
           then [.put (putTargetUrl "data" "f.txt" [("resume", "0!")]),
                 .put (putRetryUrl "f.txt" [("resume", "0!")])]
           else [.put (putTargetUrl "data" "f.txt" [("resume", "0!")])]) ∧
    (uploadFilePut (fun i _ => if i = 0 then 404 else 201) "http://127.0.0.1:8280"
        "data" "f.txt" [("resume", "0!")] true (.buffer [7, 7]) false).map
        PutResult.finalStatus =
      .ok (if (fun (i : Nat) (_ : String) => if i = 0 then 404 else 201) 0
              (putTargetUrl "data" "f.txt" [("resume", "0!")]) = 404 ∧
              stripSlashes "data" ≠ ""
           then (fun (i : Nat) (_ : String) => if i = 0 then 404 else 201) 1
              (putRetryUrl "f.txt" [("resume", "0!")])
           else (fun (i : Nat) (_ : String) => if i = 0 then 404 else 201) 0
              (putTargetUrl "data" "f.txt" [("resume", "0!")]))) :=
  ⟨by decide,
   put_404_single_retry (fun i _ => if i = 0 then 404 else 201) "http://127.0.0.1:8280"
     "data" "f.txt" [("resume", "0!")] true (.buffer [7, 7]) false (by decide)⟩

/-- **C5.** Directory-walk aggregation: the success count is exactly the
number of files whose status is 200 or 201, the failure list holds exactly
the other files as `(relative path, "{status} {body}")` pairs in walk order
(so no succeeded file ever appears in it and the count never decreases),
and on the concrete two-file walk with statuses 200 and 500 the result is
`(1, [(failed path, "500 <body>")])`. -/
theorem walk_aggregation (files : List WalkFile) :
    (walkAggregate files).1 =
        files.countP (fun f => f.status == 200 || f.status == 201) ∧
    (walkAggregate files).2 =
        files.filterMap (fun f =>
          if f.status = 200 ∨ f.status = 201 then none
          else some (f.relPath, toString f.status ++ " " ++ f.text)) ∧
    walkAggregate [⟨"a.txt", 200, "ok"⟩, ⟨"sub/b.txt", 500, "<body>"⟩] =
      (1, [("sub/b.txt", "500 <body>")]) := by
  have aux : ∀ (fs : List WalkFile) (n : Nat) (acc : List (String × String)),
      fs.foldl
        (fun acc f =>
          if f.status = 200 ∨ f.status = 201 then (acc.1 + 1, acc.2)
          else (acc.1, acc.2 ++ [(f.relPath, toString f.status ++ " " ++ f.text)]))
        (n, acc) =
      (n + fs.countP (fun f => f.status == 200 || f.status == 201),
       acc ++ fs.filterMap (fun f =>
         if f.status = 200 ∨ f.status = 201 then none
         else some (f.relPath, toString f.status ++ " " ++ f.text))) := by
    intro fs
    induction fs with
    | nil => intro n acc; simp
    | cons f fs ih =>
      intro n acc
      by_cases hf : f.status = 200 ∨ f.status = 201
      · simp [List.foldl_cons, hf, ih, List.countP_cons]
        omega
      · have hb : (f.status == 200 || f.status == 201) = false := by
          simp only [Bool.or_eq_false_iff, beq_eq_false_iff_ne]
          omega
        simp [List.foldl_cons, hf, ih, List.countP_cons, hb]
  refine ⟨?_, ?_, by decide⟩
  · rw [walkAggregate, aux]
    simp
  · rw [walkAggregate, aux]
    simp

/-- **C6 counterexample.** The claim says a failure of the
session-establishing login request inside `_get_client` is never surfaced
as an exception from that call; but the login GET is wrapped in no
try/except, so a transport-level failure of it propagates: with credentials
configured and the login request raising, `_get_client` raises. -/
theorem getclient_login_exn_surfaces :
    (getClient ⟨"http://127.0.0.1:8280", some "abct", some "abc123"⟩ ⟨none, 0⟩
        (.error ())).raised = true ∧
    getClient ⟨"http://127.0.0.1:8280", some "abct", some "abc123"⟩ ⟨none, 0⟩
        (.error ()) =
      .exn ⟨some ⟨0, false⟩, 1⟩ [loginUrl "abct" "abc123"] := by
  constructor <;> rfl

/-- **C6 (amended).** A login request that completes with an unsuccessful
HTTP response is not surfaced from `_get_client` (its status is ignored);
only a transport-level exception propagates.  Explicit `login()` calls never
raise: they return a boolean, `false` whenever the login request fails with
an exception or an unsuccessful response. -/
theorem login_failure_surfacing (cfg : ClientConfig) (s : SessionState) (b : Bool)
    (o : Except Unit Bool) :
    (getClient cfg s (.ok b)).raised = false ∧
    loginCall cfg s o (.error ()) = false ∧
    loginCall cfg s o (.ok false) = false := by
  refine ⟨?_, ?_, ?_⟩
  · rcases s with ⟨client, nid⟩
    rcases client with _ | h
    · rcases hu : cfg.username with _ | u <;> rcases hp : cfg.password with _ | p <;>
        simp [getClient, hu, hp, GetClientOutcome.raised]
    · by_cases hcl : h.isClosed
      · rcases hu : cfg.username with _ | u <;> rcases hp : cfg.password with _ | p <;>
          simp [getClient, hu, hp, hcl, GetClientOutcome.raised]
      · simp [getClient, hcl, GetClientOutcome.raised]
  · rcases hu : cfg.username with _ | u <;> rcases hp : cfg.password with _ | p <;>
      simp [loginCall, hu, hp] <;> cases getClient cfg s o <;> simp
  · rcases hu : cfg.username with _ | u <;> rcases hp : cfg.password with _ | p <;>
      simp [loginCall, hu, hp] <;> cases getClient cfg s o <;> simp

/-- **C4.** When the resolver takes the no-Location listing path and picks a
name, that name belongs to a candidate (exact base name or conflict-rename
pattern) whose `(N, mtime)` sort key no other candidate exceeds — the
highest `N`, ties broken by the later modification timestamp; in
particular, resolving `docker-compose.yaml` against the listing
`(1)/(9)/(10)` selects `docker-compose (10).yaml`. -/
theorem resolver_selects_highest_N :
    (∀ (requested : String) (entries : List ListEntry) (name : String),
      resolveActualName requested entries = some name →
      ∃ e, e ∈ renameCandidates requested entries ∧ e.n = some name ∧
        ∀ e2 ∈ renameCandidates requested entries,
          ¬ keyLt (sortKey (pathStem requested) (pathSuffix requested) e)
                  (sortKey (pathStem requested) (pathSuffix requested) e2)) ∧
    resolveActualName "docker-compose.yaml" sampleListing =
      some "docker-compose (10).yaml" := by
  constructor
  · intro requested entries name h
    simp only [resolveActualName] at h
    rcases hhead : (sortDesc (pathStem requested) (pathSuffix requested)
        (renameCandidates requested entries)).head? with _ | best
    · rw [hhead] at h; simp at h
    · rw [hhead] at h
      obtain ⟨hmem, hmax⟩ := sortDesc_head_max _ _ _ best hhead
      exact ⟨best, hmem, h, hmax⟩
  · decide

/-- **C4 witness.** The selection property instantiated at the concrete
`docker-compose.yaml` resolution. -/
theorem resolver_selects_highest_N_witness :
    ∃ e, e ∈ renameCandidates "docker-compose.yaml" sampleListing ∧
      e.n = some "docker-compose (10).yaml" ∧
      ∀ e2 ∈ renameCandidates "docker-compose.yaml" sampleListing,
        ¬ keyLt
            (sortKey (pathStem "docker-compose.yaml")
              (pathSuffix "docker-compose.yaml") e)
            (sortKey (pathStem "docker-compose.yaml")
              (pathSuffix "docker-compose.yaml") e2) :=
  resolver_selects_highest_N.1 "docker-compose.yaml" sampleListing
    "docker-compose (10).yaml" (by decide)

/-- **C8.** The resolver is a total function of the response and the
(possibly failing) listing — the embedding shows it raises nothing for a
well-formed response — and whenever the parent-directory listing fails, it
returns exactly the URL of the target folder composed with the originally
requested name (for any normalized requested name: nonempty, `.`-free
segments). -/
theorem resolver_listing_failure_fallback (baseUrl folder requested : String)
    (hseg : ∀ seg ∈ splitOnSlash requested, seg ≠ "" ∧ seg ≠ ".") :
    getUploadedFileUrl baseUrl folder requested ⟨none⟩ (.error ()) =
      getResourceUrl baseUrl (stripSlashes (stripSlashes folder ++ "/" ++ requested))
        true := by
  have hfilter : pathParts requested = splitOnSlash requested := by
    unfold pathParts
    apply List.filter_eq_self.mpr
    intro a ha
    obtain ⟨h1, h2⟩ := hseg a ha
    simp [h1, h2]
  rcases List.eq_nil_or_concat (splitOnSlash requested) with hnil | ⟨L, bstr, hSS⟩
  · exact absurd hnil (splitOnSlash_ne_nil requested)
  rw [List.concat_eq_append] at hSS
  have hname : pathName requested = bstr := by
    unfold pathName
    rw [hfilter, hSS, List.getLast?_concat]
    rfl
  simp only [getUploadedFileUrl]
  cases L with
  | nil =>
    have hparent : pathParentStr requested = "." := by
      unfold pathParentStr
      rw [hfilter, hSS]
      simp
    have hreqb : requested = bstr := by
      have hj := join_splitOnSlash requested
      rw [hSS] at hj
      simp only [List.nil_append] at hj
      rw [joinSlash_singleton] at hj
      exact hj.symm
    rw [hparent, hname]
    simp only [ne_eq, not_true_eq_false, if_false]
    rw [hreqb]
  | cons p0 ps =>
    have hmemSS : ∀ s ∈ splitOnSlash requested, s ≠ "" ∧ s ≠ "." ∧ '/' ∉ s.toList := by
      intro s hs
      refine ⟨(hseg s hs).1, (hseg s hs).2, ?_⟩
      unfold splitOnSlash at hs
      rcases List.mem_map.mp hs with ⟨csl, hcsl, rfl⟩
      exact mem_splitSlash_no_slash _ csl hcsl
    have hmemL : ∀ s ∈ p0 :: ps, s ≠ "" ∧ s ≠ "." ∧ '/' ∉ s.toList := by
      intro s hs
      exact hmemSS s (by rw [hSS]; exact List.mem_append_left _ hs)
    have hparent : pathParentStr requested = joinSlash (p0 :: ps) := by
      have hdl : ((p0 :: ps) ++ [bstr]).dropLast = p0 :: ps := List.dropLast_concat
      simp only [pathParentStr, hfilter, hSS]
      rw [hdl]
      simp
    have hpdot : joinSlash (p0 :: ps) ≠ "." :=
      joinSlash_ne_dot _ (by simp) (fun s hs => (hmemL s hs).1)
        (fun s hs => (hmemL s hs).2.1)
    have hreqsplit : requested = joinSlash (p0 :: ps) ++ "/" ++ bstr := by
      have hj := join_splitOnSlash requested
      rw [hSS, joinSlash_concat _ _ (by simp)] at hj
      exact hj.symm
    rw [hname, hparent, if_pos hpdot, hreqsplit]
    obtain ⟨jne, jhead, jlast⟩ :=
      joinSlashChars_facts ((p0 :: ps).map String.toList) (by simp)
        (by
          intro s' hs'
          rcases List.mem_map.mp hs' with ⟨s, hs, rfl⟩
          exact toList_ne_nil (hmemL s hs).1)
        (by
          intro s' hs'
          rcases List.mem_map.mp hs' with ⟨s, hs, rfl⟩
          exact (hmemL s hs).2.2)
    have hkey :
        stripSlashes
            (stripSlashes (stripSlashes folder ++ "/" ++ joinSlash (p0 :: ps)) ++ "/"
              ++ bstr) =
          stripSlashes
            (stripSlashes folder ++ "/" ++ (joinSlash (p0 :: ps) ++ "/" ++ bstr)) := by
      apply string_eq_of_toList
      simp only [toList_stripSlashes, toList_append3, toList_joinSlash]
      exact charStrip_concat_assoc _ _ _ (charStrip_head_ne _) (charStrip_getLast_ne _)
        jne jhead jlast
    rw [hkey]

/-- **C8 witness.** The fallback at the concrete folder `data` and requested
name `sub/f.txt` with a failing listing. -/
theorem resolver_listing_failure_fallback_witness :
    (∀ seg ∈ splitOnSlash "sub/f.txt", seg ≠ "" ∧ seg ≠ ".") ∧
    getUploadedFileUrl "http://127.0.0.1:8280" "data" "sub/f.txt" ⟨none⟩ (.error ()) =
      getResourceUrl "http://127.0.0.1:8280"
        (stripSlashes (stripSlashes "data" ++ "/" ++ "sub/f.txt")) true :=
  ⟨by decide,
   resolver_listing_failure_fallback "http://127.0.0.1:8280" "data" "sub/f.txt"
     (by decide)⟩

/-- **C9.** Calling `close` twice equals calling it once (and, being a total
function, it raises nothing); after a `close`, `_get_client` always opens a
fresh handle — the new id, not closed, cached in the state — and issues the
login handshake exactly when both username and password are configured. -/
theorem close_idempotent_reopen (cfg : ClientConfig) (s : SessionState) (b : Bool) :
    close (close s) = close s ∧
    getClient cfg (close s) (.ok b) =
      .ok ⟨some ⟨(close s).nextId, false⟩, (close s).nextId + 1⟩
        ⟨(close s).nextId, false⟩
        (match cfg.username, cfg.password with
         | some u, some p => [loginUrl u p]
         | _, _ => []) := by
  rcases s with ⟨client, nid⟩
  rcases client with _ | h
  · refine ⟨rfl, ?_⟩
    rcases hu : cfg.username with _ | u <;> rcases hp : cfg.password with _ | p <;>
      simp [close, getClient, hu, hp]
  · by_cases hcl : h.isClosed
    · refine ⟨by simp [close, hcl], ?_⟩
      rcases hu : cfg.username with _ | u <;> rcases hp : cfg.password with _ | p <;>
        simp [close, getClient, hu, hp, hcl]
    · refine ⟨by simp [close, hcl], ?_⟩
      rcases hu : cfg.username with _ | u <;> rcases hp : cfg.password with _ | p <;>
        simp [close, getClient, hu, hp, hcl]

end HFS
